import Mathlib

/-!
Shallow embedding of treelite's FastMap (include/treelite/fastmap.h, the
revision that keeps a separate size_ counter): an open-addressing hash
table with linear probing that never wraps around, a fixed size_hint_
modulus and a backward-shift deletion pass.  Keys and values are modelled
as Nat (the templates are instantiated with integer-like types in the
repository), the pluggable Hash as an arbitrary function Nat → Nat, and
KeyEqual as equality on Nat.  The backing
std::vector<std::pair<std::pair<Key, T>, bool>> is a List Slot.
-/

namespace FastMapModel

/-- One cell of the backing vector, value_type_ =
std::pair<std::pair<Key, T>, bool>: key is .first.first, val is
.first.second, valid is .second. -/
structure Slot where
  key : Nat
  val : Nat
  valid : Bool
deriving DecidableEq, Repr

/-- A value-initialized cell, as produced by data.emplace_back() with no
arguments: zero key, zero value, valid flag false. -/
def emptySlot : Slot := ⟨0, 0, false⟩

/-- The FastMap state: size_hint_ (the fixed modulus), size_ (the live
entry counter) and the backing vector data.  The reserved capacity is not
observable and is not modelled. -/
structure FastMap where
  sizeHint : Nat
  sz : Nat
  data : List Slot
deriving DecidableEq, Repr

/-- PassHash: passes through keys that are already valid hashes. -/
def passHash (key : Nat) : Nat := key

/-- FastMap(hinted_size): data empty (reserve only affects capacity),
size_ = 0. -/
def mkFastMap (hintedSize : Nat) : FastMap := ⟨hintedSize, 0, []⟩

/-- clear(): data.clear(); size_ = 0. -/
def clearOp (m : FastMap) : FastMap := ⟨m.sizeHint, 0, []⟩

/-- size(): returns size_. -/
def sizeOp (m : FastMap) : Nat := m.sz

/-- Structural core of the index scans: first index j ≥ i whose cell
satisfies p, walking the suffix of the vector that starts at i. -/
def scanFrom (p : Slot → Bool) : List Slot → Nat → Option Nat
  | [], _ => none
  | s :: rest, i => if p s then some i else scanFrom p rest (i + 1)

/-- First index j with i ≤ j < data.length and p data[j], as computed by
the loops for (j = i; j < data.size(); ++j); none when the loop runs off
the end of storage. -/
def scanIdx (p : Slot → Bool) (data : List Slot) (i : Nat) : Option Nat :=
  scanFrom p (data.drop i) i

/-- In-place update of one cell of the backing vector. -/
def modifySlot (data : List Slot) (i : Nat) (f : Slot → Slot) : List Slot :=
  data.set i (f (data.getD i emptySlot))

/-- operator[]: returns the updated table together with the index of the
cell whose value field the C++ returns by reference.  Note that the scan
in the source compares the key of every cell, valid or not
(key_equal(key, data[i].first.first) is tested before data[i].second), and
computes the first invalid cell (empty_loc) in the same loop; returning at
the first key match and separately scanning for the first invalid cell is
observably the same. -/
def indexOp (hash : Nat → Nat) (m : FastMap) (k : Nat) : FastMap × Nat :=
  let offset := hash k % m.sizeHint
  if offset ≥ m.data.length then
    -- while (data.size() <= offset) data.emplace_back();
    let grown := m.data ++ List.replicate (offset + 1 - m.data.length) emptySlot
    -- data.back() sits at index offset; set its key, mark it valid, ++size_
    (⟨m.sizeHint, m.sz + 1,
      modifySlot grown offset (fun s => { s with key := k, valid := true })⟩, offset)
  else
    match scanIdx (fun s => s.key == k) m.data offset with
    | some i => (m, i)
    | none =>
        let emptyLoc? := scanIdx (fun s => !s.valid) m.data offset
        -- if (empty_loc == data.size()) data.emplace_back();
        let data1 := if emptyLoc?.isNone then m.data ++ [emptySlot] else m.data
        let emptyLoc := emptyLoc?.getD m.data.length
        -- if (!data[empty_loc].second) { ++size_; data[empty_loc].second = true; }
        -- data[empty_loc].first.first = key;
        -- (setting valid := true unconditionally agrees with the guarded
        -- assignment: in the branch where the guard fails the flag is
        -- already true)
        let sz1 := if (data1.getD emptyLoc emptySlot).valid then m.sz else m.sz + 1
        (⟨m.sizeHint, sz1,
          modifySlot data1 emptyLoc (fun s => { s with key := k, valid := true })⟩,
         emptyLoc)

/-- map[k] = v: operator[] followed by an assignment through the returned
reference. -/
def indexAssign (hash : Nat → Nat) (m : FastMap) (k v : Nat) : FastMap :=
  let r := indexOp hash m k
  ⟨r.1.sizeHint, r.1.sz, modifySlot r.1.data r.2 (fun s => { s with val := v })⟩

/-- std::iter_swap(data_begin + i, data_begin + j). -/
def swapSlots (data : List Slot) (i j : Nat) : List Slot :=
  (data.set i (data.getD j emptySlot)).set j (data.getD i emptySlot)

/-- The erase compaction loop, for (i = loc + 1; i < data.size(); ++i):
swap the cells at i - 1 and i while data[i] is valid and
hash(data[i].key) % size_hint_ > i, stop at the first cell that fails
this test.  fuel bounds the number of iterations; data.length iterations
always suffice because i grows by one per step, the loop exits once i
reaches the length, and swaps preserve the length. -/
def compactAux (hash : Nat → Nat) (hint : Nat) : Nat → List Slot → Nat → List Slot
  | 0, data, _ => data
  | fuel + 1, data, i =>
      if i < data.length then
        let s := data.getD i emptySlot
        if s.valid ∧ i < hash s.key % hint then
          compactAux hash hint fuel (swapSlots data (i - 1) i) (i + 1)
        else data
      else data

def compact (hash : Nat → Nat) (hint : Nat) (data : List Slot) (i : Nat) : List Slot :=
  compactAux hash hint data.length data i

/-- erase(key): forward scan from offset that breaks with loc = i at the
first valid key match and returns 0 at the first invalid cell (or when
the loop, and with it loc == data.size(), runs off the end); on a match
the cell is invalidated, size_ is decremented and the compaction loop
runs from loc + 1.  The Nat subtraction on size_ agrees with the size_t
decrement because a valid cell was just found, so on any state whose
size_ counts the valid cells the counter is positive. -/
def eraseOp (hash : Nat → Nat) (m : FastMap) (k : Nat) : FastMap × Nat :=
  let offset := hash k % m.sizeHint
  match scanIdx (fun s => !s.valid || s.key == k) m.data offset with
  | none => (m, 0)
  | some loc =>
      if (m.data.getD loc emptySlot).valid then
        let data1 := modifySlot m.data loc (fun s => { s with valid := false })
        (⟨m.sizeHint, m.sz - 1, compact hash m.sizeHint data1 (loc + 1)⟩, 1)
      else (m, 0)

/-- at(key): find_if(data.begin() + offset, data.end(), valid and key
match); none models the std::out_of_range throw.  The scan is meaningful
only when the iterator range handed to find_if is valid, see atRangeOk. -/
def atOp (hash : Nat → Nat) (m : FastMap) (k : Nat) : Option Nat :=
  match scanIdx (fun s => s.valid && s.key == k) m.data (hash k % m.sizeHint) with
  | none => none
  | some i => some ((m.data.getD i emptySlot).val)

/-- Validity of the iterator range [data.begin() + offset, data.end())
that at(key) hands to std::find_if: data.begin() + offset stays inside
the vector only when offset ≤ data.size(); otherwise the first iterator
lies beyond the last and the scan walks out of bounds. -/
def atRangeOk (hash : Nat → Nat) (m : FastMap) (k : Nat) : Prop :=
  hash k % m.sizeHint ≤ m.data.length

/-- count(key): forward scan from offset; 1 at a valid key match, 0 at
the first invalid cell or when the loop runs off the end. -/
def countOp (hash : Nat → Nat) (m : FastMap) (k : Nat) : Nat :=
  match scanIdx (fun s => !s.valid || s.key == k) m.data (hash k % m.sizeHint) with
  | none => 0
  | some i => if (m.data.getD i emptySlot).valid then 1 else 0

/-- Iterator::operator++ as the position reached from i: while
(base_iter != base_end) { ++base_iter; if (base_iter->second) return; } —
the first position after i holding a valid cell, or the end position
(the dereference of base_end that the loop performs just before its exit
test is observationally ignored). -/
def iterNextAux (data : List Slot) : Nat → Nat → Nat
  | 0, _ => data.length
  | fuel + 1, i =>
      if i + 1 < data.length then
        if (data.getD (i + 1) emptySlot).valid then i + 1
        else iterNextAux data fuel (i + 1)
      else data.length

def iterNext (data : List Slot) (i : Nat) : Nat := iterNextAux data data.length i

/-- The pairs produced by for (it = begin(); it != end(); ++it) *it.
begin() wraps the raw data.begin() without advancing past invalid cells,
so when storage is non-empty the cell at index 0 is dereferenced and
yielded whatever its valid flag says. -/
def iterListAux (data : List Slot) : Nat → Nat → List (Nat × Nat)
  | 0, _ => []
  | fuel + 1, i =>
      if i < data.length then
        let s := data.getD i emptySlot
        (s.key, s.val) :: iterListAux data fuel (iterNext data i)
      else []

def iterList (m : FastMap) : List (Nat × Nat) :=
  iterListAux m.data (m.data.length + 1) 0

/-- Number of cells whose valid flag is set. -/
def countValid (data : List Slot) : Nat := (data.filter (fun s => s.valid)).length

/-- erase without its compaction pass: scan, invalidate the found cell,
decrement size_.  Reference point for the theorem that on reachable
states the compaction pass of the source never swaps anything. -/
def eraseNoShift (hash : Nat → Nat) (m : FastMap) (k : Nat) : FastMap × Nat :=
  let offset := hash k % m.sizeHint
  match scanIdx (fun s => !s.valid || s.key == k) m.data offset with
  | none => (m, 0)
  | some loc =>
      if (m.data.getD loc emptySlot).valid then
        (⟨m.sizeHint, m.sz - 1,
          modifySlot m.data loc (fun s => { s with valid := false })⟩, 1)
      else (m, 0)

/-- Modelled from the specification's words for comparison with the
source: a compaction pass whose guard compares the slot's offset against
its predecessor position i - 1 (the source compares it against i). -/
def compactClaimAux (hash : Nat → Nat) (hint : Nat) :
    Nat → List Slot → Nat → List Slot
  | 0, data, _ => data
  | fuel + 1, data, i =>
      if i < data.length then
        let s := data.getD i emptySlot
        if s.valid ∧ i - 1 < hash s.key % hint then
          compactClaimAux hash hint fuel (swapSlots data (i - 1) i) (i + 1)
        else data
      else data

def compactClaim (hash : Nat → Nat) (hint : Nat) (data : List Slot)
    (i : Nat) : List Slot :=
  compactClaimAux hash hint data.length data i

/-- erase as the specification describes its compaction pass (guard
against i - 1 instead of i); identical to eraseOp otherwise. -/
def eraseClaim (hash : Nat → Nat) (m : FastMap) (k : Nat) : FastMap × Nat :=
  let offset := hash k % m.sizeHint
  match scanIdx (fun s => !s.valid || s.key == k) m.data offset with
  | none => (m, 0)
  | some loc =>
      if (m.data.getD loc emptySlot).valid then
        let data1 := modifySlot m.data loc (fun s => { s with valid := false })
        (⟨m.sizeHint, m.sz - 1,
          compactClaim hash m.sizeHint data1 (loc + 1)⟩, 1)
      else (m, 0)

/-- The table built by the repository's own erase test: FastMap<int,int>
map{5} with PassHash; map[i] = i for i = 0, ..., 5. -/
def exampleTable : FastMap :=
  indexAssign passHash
    (indexAssign passHash
      (indexAssign passHash
        (indexAssign passHash
          (indexAssign passHash
            (indexAssign passHash (mkFastMap 5) 0 0) 1 1) 2 2) 3 3) 4 4) 5 5

/-- exampleTable after erase(3). -/
def exampleErased : FastMap := (eraseOp passHash exampleTable 3).1

/-- FastMap<int,int> map{5} after the single access map[3]: storage
holds three value-initialized cells and one valid cell. -/
def oneInsert : FastMap := (indexOp passHash (mkFastMap 5) 3).1

/-- oneInsert after the assignment map[0] = 7. -/
def staleTable : FastMap := indexAssign passHash oneInsert 0 7

/-- FastMap<int,int> map{5} after map[0] and erase(0): the table is
empty again (size 0) but storage keeps one invalidated cell. -/
def erasedSingle : FastMap :=
  (eraseOp passHash ((indexOp passHash (mkFastMap 5) 0).1) 0).1

/-- The no-wraparound placement invariant: every valid cell sits at an
index no smaller than its own key's offset. -/
def OffsetInv (hash : Nat → Nat) (hint : Nat) (data : List Slot) : Prop :=
  ∀ i, (data.getD i emptySlot).valid = true →
    hash (data.getD i emptySlot).key % hint ≤ i

/-- At most one valid cell per key, stated pairwise over storage
indices. -/
def UniqInv (data : List Slot) : Prop :=
  ∀ i j, i ≠ j → (data.getD i emptySlot).valid = true →
    (data.getD j emptySlot).valid = true →
    (data.getD i emptySlot).key ≠ (data.getD j emptySlot).key

/-- The joint state invariant: positive modulus, accurate live counter,
placement invariant, and key uniqueness among valid cells. -/
def Inv (hash : Nat → Nat) (m : FastMap) : Prop :=
  0 < m.sizeHint ∧ m.sz = countValid m.data ∧
    OffsetInv hash m.sizeHint m.data ∧ UniqInv m.data

/-- Reachable table states: a table constructed with a positive size
hint followed by any sequence of index accesses, value assignments
through the returned references, erases and clears. -/
inductive Reachable (hash : Nat → Nat) : FastMap → Prop where
  | mk_table : ∀ hint, 0 < hint → Reachable hash (mkFastMap hint)
  | index_step : ∀ m k, Reachable hash m → Reachable hash (indexOp hash m k).1
  | assign_step : ∀ m k v, Reachable hash m →
      Reachable hash (indexAssign hash m k v)
  | erase_step : ∀ m k, Reachable hash m → Reachable hash (eraseOp hash m k).1
  | clear_step : ∀ m, Reachable hash m → Reachable hash (clearOp m)

/-! Helper lemmas about getD over the list operations the embedding
uses.  The default element is always emptySlot, matching the
value-initialized cells of the backing vector. -/

theorem getD_eq (l : List Slot) (i : Nat) :
    l.getD i emptySlot = l[i]?.getD emptySlot :=
  List.getD_eq_getElem?_getD l i emptySlot

theorem getD_of_le (l : List Slot) (i : Nat) (h : l.length ≤ i) :
    l.getD i emptySlot = emptySlot := by
  rw [getD_eq, List.getElem?_eq_none h]; rfl

theorem getD_at_lt (l : List Slot) (i : Nat) (h : i < l.length) :
    l[i]? = some (l.getD i emptySlot) := by
  rw [getD_eq, List.getElem?_eq_getElem h]; rfl

theorem getD_set_self (l : List Slot) (i : Nat) (a : Slot) (h : i < l.length) :
    (l.set i a).getD i emptySlot = a := by
  rw [getD_eq, List.getElem?_set]; simp [h]

theorem getD_set_ne (l : List Slot) (i j : Nat) (a : Slot) (h : i ≠ j) :
    (l.set i a).getD j emptySlot = l.getD j emptySlot := by
  rw [getD_eq, getD_eq, List.getElem?_set, if_neg h]

theorem getD_append_left (l t : List Slot) (i : Nat) (h : i < l.length) :
    (l ++ t).getD i emptySlot = l.getD i emptySlot := by
  rw [getD_eq, getD_eq, List.getElem?_append_left h]

theorem getD_append_right (l t : List Slot) (i : Nat) (h : l.length ≤ i) :
    (l ++ t).getD i emptySlot = t.getD (i - l.length) emptySlot := by
  rw [getD_eq, getD_eq, List.getElem?_append_right h]

theorem getD_replicate (n i : Nat) :
    (List.replicate n emptySlot).getD i emptySlot = emptySlot := by
  rw [getD_eq, List.getElem?_replicate]
  split <;> rfl

/-! Counting valid cells. -/

theorem countValid_cons (s : Slot) (t : List Slot) :
    countValid (s :: t) = (if s.valid then 1 else 0) + countValid t := by
  cases hv : s.valid <;> simp [countValid, List.filter_cons, hv, Nat.add_comm]

theorem countValid_append (l t : List Slot) :
    countValid (l ++ t) = countValid l + countValid t := by
  simp [countValid, List.filter_append]

theorem countValid_replicate_empty (n : Nat) :
    countValid (List.replicate n emptySlot) = 0 := by
  simp [countValid, List.filter_replicate, emptySlot]

theorem countValid_set (l : List Slot) (i : Nat) (a : Slot) (h : i < l.length) :
    countValid (l.set i a) + (if (l.getD i emptySlot).valid then 1 else 0) =
      countValid l + (if a.valid then 1 else 0) := by
  induction l generalizing i with
  | nil => simp at h
  | cons s t ih =>
    cases i with
    | zero =>
      simp only [List.set, List.getD_cons_zero, countValid_cons]
      split_ifs <;> omega
    | succ n =>
      have hn : n < t.length := by simpa using h
      have := ih n hn
      simp only [List.set, List.getD_cons_succ, countValid_cons]
      omega

/-! The index scans: recurrence and the two soundness lemmas. -/

theorem scanIdx_rec (p : Slot → Bool) (data : List Slot) (i : Nat) :
    scanIdx p data i =
      if _h : i < data.length then
        (if p (data.getD i emptySlot) then some i else scanIdx p data (i + 1))
      else none := by
  by_cases h : i < data.length
  · rw [dif_pos h]
    have hg : data.getD i emptySlot = data[i] := by
      rw [getD_eq, List.getElem?_eq_getElem h]; rfl
    show scanFrom p (data.drop i) i = _
    rw [List.drop_eq_getElem_cons h, hg]
    rfl
  · rw [dif_neg h]
    show scanFrom p (data.drop i) i = none
    rw [List.drop_eq_nil_of_le (Nat.le_of_not_lt h)]
    rfl

theorem scanIdx_some (p : Slot → Bool) (data : List Slot) (i j : Nat)
    (hs : scanIdx p data i = some j) :
    i ≤ j ∧ j < data.length ∧ p (data.getD j emptySlot) = true ∧
      ∀ l, i ≤ l → l < j → p (data.getD l emptySlot) = false := by
  rw [scanIdx_rec] at hs
  by_cases h : i < data.length
  · rw [dif_pos h] at hs
    by_cases hp : p (data.getD i emptySlot)
    · rw [if_pos hp] at hs
      obtain rfl : i = j := by simpa using hs
      exact ⟨Nat.le_refl _, h, hp,
        fun l h1 h2 => absurd (Nat.lt_of_le_of_lt h1 h2) (Nat.lt_irrefl _)⟩
    · rw [if_neg hp] at hs
      obtain ⟨h1, h2, h3, h4⟩ := scanIdx_some p data (i + 1) j hs
      refine ⟨by omega, h2, h3, fun l hl1 hl2 => ?_⟩
      rcases Nat.eq_or_lt_of_le hl1 with rfl | hl
      · simpa using hp
      · exact h4 l hl hl2
  · rw [dif_neg h] at hs; cases hs
termination_by data.length - i
decreasing_by omega

theorem scanIdx_none (p : Slot → Bool) (data : List Slot) (i : Nat)
    (hs : scanIdx p data i = none) :
    ∀ j, i ≤ j → j < data.length → p (data.getD j emptySlot) = false := by
  intro j hij hj
  rw [scanIdx_rec] at hs
  by_cases h : i < data.length
  · rw [dif_pos h] at hs
    by_cases hp : p (data.getD i emptySlot)
    · rw [if_pos hp] at hs; cases hs
    · rw [if_neg hp] at hs
      rcases Nat.eq_or_lt_of_le hij with rfl | hl
      · simpa using hp
      · exact scanIdx_none p data (i + 1) hs j hl hj
  · omega
termination_by data.length - i
decreasing_by omega

/-- Under the placement invariant the compaction guard
data[i].second && hash(data[i].first.first) % size_hint_ > i never
holds, so the loop breaks at once. -/
theorem compactAux_eq_self (hash : Nat → Nat) (hint : Nat) (fuel : Nat)
    (data : List Slot) (i : Nat) (hinv : OffsetInv hash hint data) :
    compactAux hash hint fuel data i = data := by
  cases fuel with
  | zero => rfl
  | succ n =>
    show (if i < data.length then _ else data) = data
    by_cases h : i < data.length
    · rw [if_pos h]
      have hng : ¬ ((data.getD i emptySlot).valid ∧
          i < hash (data.getD i emptySlot).key % hint) := by
        rintro ⟨hv, hlt⟩
        exact absurd (hinv i hv) (by omega)
      rw [if_neg hng]
    · rw [if_neg h]

theorem compact_eq_self (hash : Nat → Nat) (hint : Nat) (data : List Slot)
    (i : Nat) (hinv : OffsetInv hash hint data) :
    compact hash hint data i = data :=
  compactAux_eq_self hash hint data.length data i hinv

/-! Branch characterizations of operator[] and erase. -/

theorem indexOp_grow (hash : Nat → Nat) (m : FastMap) (k : Nat)
    (h : m.data.length ≤ hash k % m.sizeHint) :
    indexOp hash m k =
      (⟨m.sizeHint, m.sz + 1,
        modifySlot
          (m.data ++ List.replicate (hash k % m.sizeHint + 1 - m.data.length) emptySlot)
          (hash k % m.sizeHint) (fun s => { s with key := k, valid := true })⟩,
       hash k % m.sizeHint) := by
  simp only [indexOp]
  rw [if_pos (show hash k % m.sizeHint ≥ m.data.length from h)]

theorem indexOp_found (hash : Nat → Nat) (m : FastMap) (k i : Nat)
    (hlt : hash k % m.sizeHint < m.data.length)
    (hscan : scanIdx (fun s => s.key == k) m.data (hash k % m.sizeHint) = some i) :
    indexOp hash m k = (m, i) := by
  simp only [indexOp]
  rw [if_neg (by omega), hscan]

theorem indexOp_reuse (hash : Nat → Nat) (m : FastMap) (k el : Nat)
    (hlt : hash k % m.sizeHint < m.data.length)
    (hmatch : scanIdx (fun s => s.key == k) m.data (hash k % m.sizeHint) = none)
    (hempty : scanIdx (fun s => !s.valid) m.data (hash k % m.sizeHint) = some el) :
    indexOp hash m k =
      (⟨m.sizeHint, m.sz + 1,
        modifySlot m.data el (fun s => { s with key := k, valid := true })⟩, el) := by
  have hv : (m.data.getD el emptySlot).valid = false := by
    have := (scanIdx_some _ _ _ _ hempty).2.2.1
    simpa using this
  have hv2 : (m.data[el]?.getD emptySlot).valid = false := by
    rw [← getD_eq]; exact hv
  simp only [indexOp]
  rw [if_neg (by omega), hmatch, hempty]
  simp [hv, hv2]

theorem indexOp_append (hash : Nat → Nat) (m : FastMap) (k : Nat)
    (hlt : hash k % m.sizeHint < m.data.length)
    (hmatch : scanIdx (fun s => s.key == k) m.data (hash k % m.sizeHint) = none)
    (hempty : scanIdx (fun s => !s.valid) m.data (hash k % m.sizeHint) = none) :
    indexOp hash m k =
      (⟨m.sizeHint, m.sz + 1,
        modifySlot (m.data ++ [emptySlot]) m.data.length
          (fun s => { s with key := k, valid := true })⟩, m.data.length) := by
  have hv : ((m.data ++ [emptySlot]).getD m.data.length emptySlot).valid = false := by
    rw [getD_append_right _ _ _ (Nat.le_refl _), Nat.sub_self]
    rfl
  have hv2 : ((m.data ++ [emptySlot])[m.data.length]?.getD emptySlot).valid = false := by
    rw [← getD_eq]; exact hv
  simp only [indexOp]
  rw [if_neg (by omega), hmatch, hempty]
  simp [hv, hv2, emptySlot]

theorem eraseOp_miss_none (hash : Nat → Nat) (m : FastMap) (k : Nat)
    (hscan : scanIdx (fun s => !s.valid || s.key == k) m.data
      (hash k % m.sizeHint) = none) :
    eraseOp hash m k = (m, 0) := by
  simp only [eraseOp]
  rw [hscan]

theorem eraseOp_miss_invalid (hash : Nat → Nat) (m : FastMap) (k loc : Nat)
    (hscan : scanIdx (fun s => !s.valid || s.key == k) m.data
      (hash k % m.sizeHint) = some loc)
    (hv : (m.data.getD loc emptySlot).valid = false) :
    eraseOp hash m k = (m, 0) := by
  have hv2 : (m.data[loc]?.getD emptySlot).valid = false := by
    rw [← getD_eq]; exact hv
  simp only [eraseOp]
  rw [hscan]
  simp [hv, hv2]

theorem eraseOp_found (hash : Nat → Nat) (m : FastMap) (k loc : Nat)
    (hscan : scanIdx (fun s => !s.valid || s.key == k) m.data
      (hash k % m.sizeHint) = some loc)
    (hv : (m.data.getD loc emptySlot).valid = true) :
    eraseOp hash m k =
      (⟨m.sizeHint, m.sz - 1,
        compact hash m.sizeHint
          (modifySlot m.data loc (fun s => { s with valid := false }))
          (loc + 1)⟩, 1) := by
  have hv2 : (m.data[loc]?.getD emptySlot).valid = true := by
    rw [← getD_eq]; exact hv
  simp only [eraseOp]
  rw [hscan]
  simp [hv, hv2]

/-! Preservation of the invariant components by the primitive list
updates the operations perform. -/

theorem countValid_modify_insert (data : List Slot) (el k : Nat)
    (hel : el < data.length) (hvinv : (data.getD el emptySlot).valid = false) :
    countValid (modifySlot data el (fun s => { s with key := k, valid := true }))
      = countValid data + 1 := by
  have hc := countValid_set data el
    ({ data.getD el emptySlot with key := k, valid := true }) hel
  rw [hvinv] at hc
  simpa [modifySlot] using hc

theorem countValid_modify_invalidate (data : List Slot) (loc : Nat)
    (hel : loc < data.length) (hvv : (data.getD loc emptySlot).valid = true) :
    countValid (modifySlot data loc (fun s => { s with valid := false })) + 1
      = countValid data := by
  have hc := countValid_set data loc
    ({ data.getD loc emptySlot with valid := false }) hel
  rw [hvv] at hc
  simpa [modifySlot] using hc

theorem countValid_modify_val (data : List Slot) (i v : Nat) :
    countValid (modifySlot data i (fun s => { s with val := v }))
      = countValid data := by
  by_cases hlen : i < data.length
  · have hc := countValid_set data i ({ data.getD i emptySlot with val := v }) hlen
    simpa [modifySlot] using hc
  · rw [modifySlot, List.set_eq_of_length_le (Nat.le_of_not_lt hlen)]

theorem getD_modify_insert_self (data : List Slot) (el k : Nat)
    (hel : el < data.length) :
    (modifySlot data el (fun s => { s with key := k, valid := true })).getD el
        emptySlot
      = { data.getD el emptySlot with key := k, valid := true } := by
  rw [modifySlot, getD_set_self _ _ _ hel]

theorem getD_modify_ne (data : List Slot) (el j : Nat) (f : Slot → Slot)
    (hj : j ≠ el) :
    (modifySlot data el f).getD j emptySlot = data.getD j emptySlot := by
  rw [modifySlot, getD_set_ne _ _ _ _ (fun he => hj he.symm)]

theorem offsetInv_modify_insert (hash : Nat → Nat) (hint : Nat)
    (data : List Slot) (el k : Nat) (hoff : OffsetInv hash hint data)
    (hel : el < data.length) (hofk : hash k % hint ≤ el) :
    OffsetInv hash hint
      (modifySlot data el (fun s => { s with key := k, valid := true })) := by
  intro j hv
  by_cases hj : j = el
  · subst hj
    rw [getD_modify_insert_self _ _ _ hel]
    exact hofk
  · rw [getD_modify_ne _ _ _ _ hj] at hv ⊢
    exact hoff j hv

theorem uniqInv_modify_insert (hash : Nat → Nat) (hint : Nat)
    (data : List Slot) (el k : Nat) (hoff : OffsetInv hash hint data)
    (huniq : UniqInv data) (hel : el < data.length)
    (hnok : ∀ j, hash k % hint ≤ j → j < data.length → j ≠ el →
      (data.getD j emptySlot).key ≠ k) :
    UniqInv
      (modifySlot data el (fun s => { s with key := k, valid := true })) := by
  have hside : ∀ j, j ≠ el →
      ((modifySlot data el (fun s => { s with key := k, valid := true })).getD j
        emptySlot).valid = true →
      ((modifySlot data el (fun s => { s with key := k, valid := true })).getD j
        emptySlot).key ≠ k := by
    intro j hj hv
    rw [getD_modify_ne _ _ _ _ hj] at hv ⊢
    have hjlen : j < data.length := by
      by_contra hc
      rw [getD_of_le _ _ (by omega)] at hv
      cases hv
    intro hkeq
    have hjoff := hoff j hv
    rw [hkeq] at hjoff
    exact hnok j hjoff hjlen hj hkeq
  have hk : ((modifySlot data el
      (fun s => { s with key := k, valid := true })).getD el emptySlot).key
        = k := by
    rw [getD_modify_insert_self _ _ _ hel]
  intro i j hij hvi hvj
  by_cases hi : i = el
  · intro hkeys
    rw [hi, hk] at hkeys
    exact hside j (fun he => hij (hi.trans he.symm)) hvj hkeys.symm
  · by_cases hj : j = el
    · intro hkeys
      rw [hj, hk] at hkeys
      exact hside i hi hvi hkeys
    · rw [getD_modify_ne _ _ _ _ hi] at hvi ⊢
      rw [getD_modify_ne _ _ _ _ hj] at hvj ⊢
      exact huniq i j hij hvi hvj

theorem offsetInv_append_invalid (hash : Nat → Nat) (hint : Nat)
    (data t : List Slot) (ht : ∀ j, (t.getD j emptySlot).valid = false)
    (hoff : OffsetInv hash hint data) : OffsetInv hash hint (data ++ t) := by
  intro j hv
  by_cases hj : j < data.length
  · rw [getD_append_left _ _ _ hj] at hv ⊢
    exact hoff j hv
  · rw [getD_append_right _ _ _ (by omega)] at hv
    rw [ht (j - data.length)] at hv
    cases hv

theorem uniqInv_append_invalid (data t : List Slot)
    (ht : ∀ j, (t.getD j emptySlot).valid = false)
    (huniq : UniqInv data) : UniqInv (data ++ t) := by
  intro i j hij hvi hvj
  have hilen : i < data.length := by
    by_contra hc
    rw [getD_append_right _ _ _ (by omega), ht (i - data.length)] at hvi
    cases hvi
  have hjlen : j < data.length := by
    by_contra hc
    rw [getD_append_right _ _ _ (by omega), ht (j - data.length)] at hvj
    cases hvj
  rw [getD_append_left _ _ _ hilen] at hvi ⊢
  rw [getD_append_left _ _ _ hjlen] at hvj ⊢
  exact huniq i j hij hvi hvj

theorem replicate_all_invalid (n : Nat) :
    ∀ j, ((List.replicate n emptySlot).getD j emptySlot).valid = false := by
  intro j
  rw [getD_replicate]
  rfl

theorem single_all_invalid :
    ∀ j, (([emptySlot] : List Slot).getD j emptySlot).valid = false := by
  intro j
  cases j with
  | zero => rfl
  | succ n =>
    rw [getD_of_le]
    · rfl
    · simp

/-! Preservation of the joint invariant by every operation. -/

theorem inv_mk (hash : Nat → Nat) (hint : Nat) (h : 0 < hint) :
    Inv hash (mkFastMap hint) := by
  refine ⟨h, rfl, ?_, ?_⟩
  · intro i hv
    rw [getD_of_le _ _ (Nat.zero_le i)] at hv
    cases hv
  · intro i j _ hv
    rw [getD_of_le _ _ (Nat.zero_le i)] at hv
    cases hv

theorem inv_clear (hash : Nat → Nat) (m : FastMap) (hm : Inv hash m) :
    Inv hash (clearOp m) := by
  refine ⟨hm.1, rfl, ?_, ?_⟩
  · intro i hv
    rw [getD_of_le _ _ (Nat.zero_le i)] at hv
    cases hv
  · intro i j _ hv
    rw [getD_of_le _ _ (Nat.zero_le i)] at hv
    cases hv

theorem inv_index (hash : Nat → Nat) (m : FastMap) (k : Nat) (hm : Inv hash m) :
    Inv hash (indexOp hash m k).1 := by
  obtain ⟨hpos, hsz, hoff, huniq⟩ := hm
  by_cases hgrow : m.data.length ≤ hash k % m.sizeHint
  · -- growth branch: storage is extended to offset + 1 cells and the new
    -- tail cell receives the key
    have hstate : (indexOp hash m k).1
        = ⟨m.sizeHint, m.sz + 1,
            modifySlot
              (m.data ++ List.replicate (hash k % m.sizeHint + 1 - m.data.length)
                emptySlot)
              (hash k % m.sizeHint)
              (fun s => { s with key := k, valid := true })⟩ := by
      rw [indexOp_grow hash m k hgrow]
    rw [hstate]
    have hinvrep := replicate_all_invalid (hash k % m.sizeHint + 1 - m.data.length)
    have hglen : (m.data ++ List.replicate (hash k % m.sizeHint + 1 - m.data.length)
        emptySlot).length = hash k % m.sizeHint + 1 := by
      simp
      omega
    have hgetoff : ((m.data ++ List.replicate
        (hash k % m.sizeHint + 1 - m.data.length) emptySlot).getD
          (hash k % m.sizeHint) emptySlot).valid = false := by
      rw [getD_append_right _ _ _ hgrow, getD_replicate]
      rfl
    have hoffapp := offsetInv_append_invalid hash m.sizeHint m.data _ hinvrep hoff
    have huniqapp := uniqInv_append_invalid m.data _ hinvrep huniq
    refine ⟨hpos, ?_, ?_, ?_⟩
    · show m.sz + 1 = countValid _
      rw [countValid_modify_insert _ _ _ (by omega) hgetoff,
        countValid_append, countValid_replicate_empty, hsz]
    · exact offsetInv_modify_insert hash m.sizeHint _ _ k hoffapp (by omega)
        (Nat.le_refl _)
    · refine uniqInv_modify_insert hash m.sizeHint _ _ k hoffapp huniqapp
        (by omega) ?_
      intro j h1 h2 h3
      omega
  · have hlt : hash k % m.sizeHint < m.data.length := by omega
    cases hscan : scanIdx (fun s => s.key == k) m.data (hash k % m.sizeHint) with
    | some i =>
      rw [indexOp_found hash m k i hlt hscan]
      exact ⟨hpos, hsz, hoff, huniq⟩
    | none =>
      -- no cell in [offset, size), valid or not, carries the key
      have hnok : ∀ j, hash k % m.sizeHint ≤ j → j < m.data.length →
          (m.data.getD j emptySlot).key ≠ k := by
        intro j h1 h2
        have := scanIdx_none _ _ _ hscan j h1 h2
        simpa using this
      cases hempty : scanIdx (fun s => !s.valid) m.data (hash k % m.sizeHint) with
      | some el =>
        obtain ⟨hel1, hel2, hel3, _⟩ := scanIdx_some _ _ _ _ hempty
        have helv : (m.data.getD el emptySlot).valid = false := by simpa using hel3
        have hstate : (indexOp hash m k).1
            = ⟨m.sizeHint, m.sz + 1,
                modifySlot m.data el
                  (fun s => { s with key := k, valid := true })⟩ := by
          rw [indexOp_reuse hash m k el hlt hscan hempty]
        rw [hstate]
        refine ⟨hpos, ?_, ?_, ?_⟩
        · show m.sz + 1 = countValid _
          rw [countValid_modify_insert _ _ _ hel2 helv, hsz]
        · exact offsetInv_modify_insert hash m.sizeHint _ _ k hoff hel2 hel1
        · exact uniqInv_modify_insert hash m.sizeHint _ _ k hoff huniq hel2
            (fun j h1 h2 _ => hnok j h1 h2)
      | none =>
        have hstate : (indexOp hash m k).1
            = ⟨m.sizeHint, m.sz + 1,
                modifySlot (m.data ++ [emptySlot]) m.data.length
                  (fun s => { s with key := k, valid := true })⟩ := by
          rw [indexOp_append hash m k hlt hscan hempty]
        rw [hstate]
        have happlen : (m.data ++ [emptySlot]).length = m.data.length + 1 := by
          simp
        have happv : ((m.data ++ [emptySlot]).getD m.data.length emptySlot).valid
            = false := by
          rw [getD_append_right _ _ _ (Nat.le_refl _), Nat.sub_self]
          rfl
        have hoffapp := offsetInv_append_invalid hash m.sizeHint m.data _
          single_all_invalid hoff
        have huniqapp := uniqInv_append_invalid m.data _ single_all_invalid huniq
        refine ⟨hpos, ?_, ?_, ?_⟩
        · show m.sz + 1 = countValid _
          rw [countValid_modify_insert _ _ _ (by omega) happv,
            countValid_append, hsz]
          rfl
        · exact offsetInv_modify_insert hash m.sizeHint _ _ k hoffapp (by omega)
            (by omega)
        · refine uniqInv_modify_insert hash m.sizeHint _ _ k hoffapp huniqapp
            (by omega) ?_
          intro j h1 h2 h3
          have hjlen : j < m.data.length := by
            rw [happlen] at h2
            omega
          rw [getD_append_left _ _ _ hjlen]
          exact hnok j h1 hjlen

theorem inv_assign (hash : Nat → Nat) (m : FastMap) (k v : Nat)
    (hm : Inv hash m) : Inv hash (indexAssign hash m k v) := by
  obtain ⟨hpos, hsz, hoff, huniq⟩ := inv_index hash m k hm
  have hvalid : ∀ j, (((indexAssign hash m k v).data).getD j emptySlot).valid
      = (((indexOp hash m k).1.data).getD j emptySlot).valid := by
    intro j
    simp only [indexAssign]
    by_cases hlen : (indexOp hash m k).2 < (indexOp hash m k).1.data.length
    · by_cases hj : j = (indexOp hash m k).2
      · subst hj
        rw [modifySlot, getD_set_self _ _ _ hlen]
      · rw [getD_modify_ne _ _ _ _ hj]
    · rw [modifySlot, List.set_eq_of_length_le (Nat.le_of_not_lt hlen)]
  have hkey : ∀ j, (((indexAssign hash m k v).data).getD j emptySlot).key
      = (((indexOp hash m k).1.data).getD j emptySlot).key := by
    intro j
    simp only [indexAssign]
    by_cases hlen : (indexOp hash m k).2 < (indexOp hash m k).1.data.length
    · by_cases hj : j = (indexOp hash m k).2
      · subst hj
        rw [modifySlot, getD_set_self _ _ _ hlen]
      · rw [getD_modify_ne _ _ _ _ hj]
    · rw [modifySlot, List.set_eq_of_length_le (Nat.le_of_not_lt hlen)]
  refine ⟨hpos, ?_, ?_, ?_⟩
  · show (indexOp hash m k).1.sz = _
    rw [show (indexAssign hash m k v).data
        = modifySlot (indexOp hash m k).1.data (indexOp hash m k).2
            (fun s => { s with val := v }) from rfl]
    rw [countValid_modify_val]
    exact hsz
  · intro j hv
    rw [hvalid j] at hv
    rw [hkey j]
    exact hoff j hv
  · intro i j hij hvi hvj
    rw [hvalid i] at hvi
    rw [hvalid j] at hvj
    rw [hkey i, hkey j]
    exact huniq i j hij hvi hvj

theorem offsetInv_modify_invalidate (hash : Nat → Nat) (hint : Nat)
    (data : List Slot) (loc : Nat) (hoff : OffsetInv hash hint data)
    (hlen : loc < data.length) :
    OffsetInv hash hint
      (modifySlot data loc (fun s => { s with valid := false })) := by
  intro j hvj
  by_cases hj : j = loc
  · subst hj
    rw [modifySlot, getD_set_self _ _ _ hlen] at hvj
    cases hvj
  · rw [getD_modify_ne _ _ _ _ hj] at hvj ⊢
    exact hoff j hvj

theorem inv_erase (hash : Nat → Nat) (m : FastMap) (k : Nat) (hm : Inv hash m) :
    Inv hash (eraseOp hash m k).1 := by
  obtain ⟨hpos, hsz, hoff, huniq⟩ := hm
  cases hscan : scanIdx (fun s => !s.valid || s.key == k) m.data
      (hash k % m.sizeHint) with
  | none =>
    rw [eraseOp_miss_none hash m k hscan]
    exact ⟨hpos, hsz, hoff, huniq⟩
  | some loc =>
    cases hv : (m.data.getD loc emptySlot).valid with
    | false =>
      rw [eraseOp_miss_invalid hash m k loc hscan hv]
      exact ⟨hpos, hsz, hoff, huniq⟩
    | true =>
      have hlen : loc < m.data.length := (scanIdx_some _ _ _ _ hscan).2.1
      have hstate : (eraseOp hash m k).1
          = ⟨m.sizeHint, m.sz - 1,
              compact hash m.sizeHint
                (modifySlot m.data loc (fun s => { s with valid := false }))
                (loc + 1)⟩ := by
        rw [eraseOp_found hash m k loc hscan hv]
      have hoff1 := offsetInv_modify_invalidate hash m.sizeHint m.data loc hoff hlen
      rw [hstate, compact_eq_self hash m.sizeHint _ _ hoff1]
      refine ⟨hpos, ?_, hoff1, ?_⟩
      · show m.sz - 1 = countValid
          (modifySlot m.data loc (fun s => { s with valid := false }))
        have := countValid_modify_invalidate m.data loc hlen hv
        omega
      · intro i j hij hvi hvj
        by_cases hi : i = loc
        · subst hi
          rw [modifySlot, getD_set_self _ _ _ hlen] at hvi
          cases hvi
        · by_cases hj : j = loc
          · subst hj
            rw [modifySlot, getD_set_self _ _ _ hlen] at hvj
            cases hvj
          · rw [getD_modify_ne _ _ _ _ hi] at hvi ⊢
            rw [getD_modify_ne _ _ _ _ hj] at hvj ⊢
            exact huniq i j hij hvi hvj

theorem reachable_inv (hash : Nat → Nat) (m : FastMap)
    (h : Reachable hash m) : Inv hash m := by
  induction h with
  | mk_table hint hpos => exact inv_mk hash hint hpos
  | index_step m k _ ih => exact inv_index hash m k ih
  | assign_step m k v _ ih => exact inv_assign hash m k v ih
  | erase_step m k _ ih => exact inv_erase hash m k ih
  | clear_step m _ ih => exact inv_clear hash m ih
/-! Reachability of the concrete example states. -/

theorem exampleTable_reachable : Reachable passHash exampleTable := by
  unfold exampleTable
  exact Reachable.assign_step _ 5 5 (Reachable.assign_step _ 4 4
    (Reachable.assign_step _ 3 3 (Reachable.assign_step _ 2 2
      (Reachable.assign_step _ 1 1 (Reachable.assign_step _ 0 0
        (Reachable.mk_table 5 (by decide)))))))

theorem exampleErased_reachable : Reachable passHash exampleErased :=
  Reachable.erase_step exampleTable 3 exampleTable_reachable

/-! The claims. -/

/-- C1: the claim says that after index(k) = v a later at(k) returns v
whatever index assignments to other keys happen in between.  The code
breaks it: operator[] compares the key of every cell without consulting
the valid flag, so on FastMap{5} after map[3] (which value-initializes
the cells 0..2 with key 0), map[0] = 7 writes the 7 into the invalid
cell 0 and leaves it invalid; at(0) then reports KeyNotFound and
count(0) = 0, with the value 7 stranded in storage. -/
theorem c1_stale_key_assignment_lost :
    staleTable.data.getD 0 emptySlot = ⟨0, 7, false⟩ ∧
      atOp passHash staleTable 0 = none ∧
      countOp passHash staleTable 0 = 0 ∧
      sizeOp staleTable = 1 := by
  refine ⟨by decide, by decide, by decide, by decide⟩

/-- C2 counterexample: the claim states the compaction guard compares
the moving cell's offset with its predecessor position i - 1.  On the
erase test's table (keys 0..5, hint 5) such a pass would swap the cell
holding key 4 (offset 4 > 3) into the vacated slot 3, but the source's
erase (guard offset > i) leaves slot 3 invalid, so erase as implemented
differs from erase as claimed at this input. -/
theorem c2_compaction_guard_counterexample :
    eraseOp passHash exampleTable 3 ≠ eraseClaim passHash exampleTable 3 ∧
      ((eraseOp passHash exampleTable 3).1.data.getD 3 emptySlot).valid
        = false ∧
      (eraseClaim passHash exampleTable 3).1.data.getD 3 emptySlot
        = ⟨4, 4, true⟩ := by
  refine ⟨by decide, by decide, by decide⟩

/-- C2 amended: the pass guard compares the offset with the slot's own
position i, not with i - 1: it swaps while the cell is valid and
hash(key) % size_hint_ > i and stops otherwise.  Since every valid cell
of a reachable state sits at an index at least its offset, the guard
never holds: the pass performs no swap at all and erase coincides with
eraseNoShift, which merely invalidates the found cell. -/
theorem c2_erase_never_shifts (hash : Nat → Nat) (m : FastMap) (k : Nat)
    (h : Reachable hash m) : eraseOp hash m k = eraseNoShift hash m k := by
  obtain ⟨hpos, hsz, hoff, huniq⟩ := reachable_inv hash m h
  cases hscan : scanIdx (fun s => !s.valid || s.key == k) m.data
      (hash k % m.sizeHint) with
  | none =>
    rw [eraseOp_miss_none hash m k hscan]
    simp only [eraseNoShift]
    rw [hscan]
  | some loc =>
    cases hv : (m.data.getD loc emptySlot).valid with
    | false =>
      rw [eraseOp_miss_invalid hash m k loc hscan hv]
      have hv2 : (m.data[loc]?.getD emptySlot).valid = false := by
        rw [← getD_eq]; exact hv
      simp only [eraseNoShift]
      rw [hscan]
      simp [hv, hv2]
    | true =>
      have hlen : loc < m.data.length := (scanIdx_some _ _ _ _ hscan).2.1
      have hoff1 := offsetInv_modify_invalidate hash m.sizeHint m.data loc
        hoff hlen
      rw [eraseOp_found hash m k loc hscan hv,
        compact_eq_self hash m.sizeHint _ _ hoff1]
      have hv2 : (m.data[loc]?.getD emptySlot).valid = true := by
        rw [← getD_eq]; exact hv
      simp only [eraseNoShift]
      rw [hscan]
      simp [hv, hv2]

/-- Witness for c2_erase_never_shifts at the erase test's table. -/
theorem c2_erase_never_shifts_witness :
    Reachable passHash exampleTable ∧
      eraseOp passHash exampleTable 3 = eraseNoShift passHash exampleTable 3 :=
  ⟨exampleTable_reachable,
    c2_erase_never_shifts passHash exampleTable 3 exampleTable_reachable⟩

/-- C3: the claim says count(k) is 1 exactly when a valid cell holds k,
in particular for every still-present key after an erase.  The code
breaks it: after inserting keys 0..5 into a hint-5 table and erasing
key 3, the never-swapping compaction leaves a hole at index 3, and
count(5), scanning forward from offset 0, stops there and returns 0
although the valid cell with key 5 is still present (at(5) finds it). -/
theorem c3_count_misses_present_key :
    countOp passHash exampleErased 5 = 0 ∧
      atOp passHash exampleErased 5 = some 5 ∧
      (exampleErased.data.getD 5 emptySlot).valid = true ∧
      (exampleErased.data.getD 5 emptySlot).key = 5 := by
  refine ⟨by decide, by decide, by decide, by decide⟩

/-- C4: the claim says lookups of never-inserted keys fail cleanly with
no out-of-bounds access.  count(2) on a fresh FastMap{5} does return 0,
but at(2) hands std::find_if the range [data.begin() + 2, data.end())
over the empty vector: its first iterator lies past its last, the range
is invalid and the scan walks out of bounds instead of reliably
throwing. -/
theorem c4_at_range_invalid_on_fresh_table :
    countOp passHash (mkFastMap 5) 2 = 0 ∧
      ¬ atRangeOk passHash (mkFastMap 5) 2 := by
  refine ⟨by decide, ?_⟩
  unfold atRangeOk
  decide

/-- C5: the claim says iteration skips every invalid slot and yields one
pair per inserted key.  The code breaks it: begin() wraps data.begin()
without advancing past invalid cells, so after map[3] on FastMap{5}
iteration yields 2 pairs for 1 insertion — the first, (0, 0), comes from
the invalid cell 0 and matches no lookup — and after map[0]; erase(0)
the empty table (size 0) still yields 1 pair. -/
theorem c5_iteration_yields_invalid_cells :
    iterList oneInsert = [(0, 0), (3, 0)] ∧ sizeOp oneInsert = 1 ∧
      countOp passHash oneInsert 0 = 0 ∧
      iterList erasedSingle = [(0, 0)] ∧ sizeOp erasedSingle = 0 := by
  refine ⟨by decide, by decide, by decide, by decide, by decide⟩

/-- C6: in every reachable table state the live counter returned by
size() equals the number of cells whose valid flag is true; reachability
is closed under index accesses, assignments, erases and clears, so every
operation preserves the equality. -/
theorem c6_size_eq_valid_count (hash : Nat → Nat) (m : FastMap)
    (h : Reachable hash m) : sizeOp m = countValid m.data :=
  (reachable_inv hash m h).2.1

/-- Witness for c6_size_eq_valid_count at the erased example table. -/
theorem c6_size_eq_valid_count_witness :
    Reachable passHash exampleErased ∧
      sizeOp exampleErased = countValid exampleErased.data :=
  ⟨exampleErased_reachable,
    c6_size_eq_valid_count passHash exampleErased exampleErased_reachable⟩

/-- C7: in every reachable table state at most one valid cell holds any
given key: two distinct storage indices holding valid cells carry
distinct keys, so in particular operator[] never creates a second valid
cell for a key that already has one. -/
theorem c7_valid_key_unique (hash : Nat → Nat) (m : FastMap)
    (h : Reachable hash m) :
    ∀ i j, i ≠ j → (m.data.getD i emptySlot).valid = true →
      (m.data.getD j emptySlot).valid = true →
      (m.data.getD i emptySlot).key ≠ (m.data.getD j emptySlot).key :=
  (reachable_inv hash m h).2.2.2

/-- Witness for c7_valid_key_unique at the example table, cells 0 and
5 (keys 0 and 5). -/
theorem c7_valid_key_unique_witness :
    Reachable passHash exampleTable ∧
      (exampleTable.data.getD 0 emptySlot).valid = true ∧
      (exampleTable.data.getD 5 emptySlot).valid = true ∧
      (exampleTable.data.getD 0 emptySlot).key
        ≠ (exampleTable.data.getD 5 emptySlot).key :=
  ⟨exampleTable_reachable, by decide, by decide,
    c7_valid_key_unique passHash exampleTable exampleTable_reachable 0 5
      (by decide) (by decide) (by decide)⟩

/-- C8: the claim says erase of an absent key returns 0 with no state
change (which the code honours) and that erase of a present key returns
1.  The code breaks the second half: in the erased example table key 5
is still present (at(5) = 5), yet erase(5) stops at the invalid cell 3
that the earlier erase left behind and returns 0, changing nothing. -/
theorem c8_erase_returns_zero_for_present_key :
    (eraseOp passHash exampleErased 5).2 = 0 ∧
      (eraseOp passHash exampleErased 5).1 = exampleErased ∧
      atOp passHash exampleErased 5 = some 5 := by
  refine ⟨by decide, by decide, by decide⟩

/-- C9: clear() yields exactly the state of a freshly constructed table
with the same size hint — size() is 0, and at and count behave on every
key exactly as on the fresh table. -/
theorem c9_clear_eq_fresh (hash : Nat → Nat) (m : FastMap) :
    clearOp m = mkFastMap m.sizeHint ∧ sizeOp (clearOp m) = 0 ∧
      ∀ k, countOp hash (clearOp m) k = countOp hash (mkFastMap m.sizeHint) k ∧
        atOp hash (clearOp m) k = atOp hash (mkFastMap m.sizeHint) k :=
  ⟨rfl, rfl, fun _ => ⟨rfl, rfl⟩⟩

/-- C10: in every reachable table state every valid cell sits at a
storage index no smaller than its own key's offset
hash(key) % size_hint_; reachability is closed under all operations, so
every operation preserves this. -/
theorem c10_valid_at_or_after_offset (hash : Nat → Nat) (m : FastMap)
    (h : Reachable hash m) :
    ∀ i, (m.data.getD i emptySlot).valid = true →
      hash (m.data.getD i emptySlot).key % m.sizeHint ≤ i :=
  (reachable_inv hash m h).2.2.1

/-- Witness for c10_valid_at_or_after_offset at the example table,
cell 5 (key 5, offset 0). -/
theorem c10_valid_at_or_after_offset_witness :
    Reachable passHash exampleTable ∧
      (exampleTable.data.getD 5 emptySlot).valid = true ∧
      passHash (exampleTable.data.getD 5 emptySlot).key
        % exampleTable.sizeHint ≤ 5 :=
  ⟨exampleTable_reachable, by decide,
    c10_valid_at_or_after_offset passHash exampleTable exampleTable_reachable
      5 (by decide)⟩

end FastMapModel
